import Mathlib

set_option autoImplicit false

/-!
Verification of the exam scoring and history-aggregation engine of the
lawyer-test backend (`app/main.py`, `app/models.py`).

Modelling conventions:
* Firestore documents are records; optional / possibly-absent dict fields
  are `Option`s.
* Python dicts used as ordered key→value maps (`questions_dict`,
  `section_results`, `overall_statistics`) are association lists with
  unique keys in insertion order; the update operations rewrite the first
  matching entry, which coincides with dict update on unique-key lists.
* Python numbers: counters are `Nat`, submitted answer indices are `Int`
  (they may be negative), and the floating-point `score` is modelled
  exactly as a rational number.
* Fallible lookups (`dict[k]`, enum constructors that may raise) return
  `Option`; a raised `KeyError`/`ValueError` is `none`.
-/

/-- `TestMode` from `app/models.py`. -/
inductive TestMode where
  | exam
  | demo
  | trainer
deriving DecidableEq, Repr

/-- `LegislationSection` from `app/models.py`: the fixed set of section tags. -/
inductive LegislationSection where
  | civil_code
  | civil_process_code
  | criminal_code
  | criminal_process_code
  | administrative_offenses_code
  | anti_corruption_law
  | administrative_procedure_code
  | advocacy_law
  | aml_law
deriving DecidableEq, Repr

namespace LegislationSection

/-- The `.value` string of each `LegislationSection` member. -/
def value : LegislationSection → String
  | civil_code => "civil_code"
  | civil_process_code => "civil_process_code"
  | criminal_code => "criminal_code"
  | criminal_process_code => "criminal_process_code"
  | administrative_offenses_code => "administrative_offenses_code"
  | anti_corruption_law => "anti_corruption_law"
  | administrative_procedure_code => "administrative_procedure_code"
  | advocacy_law => "advocacy_law"
  | aml_law => "aml_law"

/-- `LegislationSection(raw)`: the enum constructor applied to a raw value;
raises (`none`) when the value names no member. -/
def parse : Option String → Option LegislationSection
  | some "civil_code" => some civil_code
  | some "civil_process_code" => some civil_process_code
  | some "criminal_code" => some criminal_code
  | some "criminal_process_code" => some criminal_process_code
  | some "administrative_offenses_code" => some administrative_offenses_code
  | some "anti_corruption_law" => some anti_corruption_law
  | some "administrative_procedure_code" => some administrative_procedure_code
  | some "advocacy_law" => some advocacy_law
  | some "aml_law" => some aml_law
  | _ => none

end LegislationSection

/-- A bilingual text field (`QuestionText` / `QuestionOption` in
`app/models.py`): a dict with exactly the keys `"kz"` and `"ru"`. -/
structure LocalizedText where
  kz : String
  ru : String
deriving DecidableEq, Repr

/-- `d[lang]` on a bilingual dict: `KeyError` (`none`) on any other key. -/
def LocalizedText.get (t : LocalizedText) (lang : String) : Option String :=
  if lang = "kz" then some t.kz
  else if lang = "ru" then some t.ru
  else none

/-- A raw question document as stored in the questions collection
(`QuestionCreate.dict()` in `app/main.py` `create_question`): bilingual
question/explanation, bilingual options, correct index, section tag.
`section` is kept as the raw stored value (possibly absent). -/
structure QuestionDoc where
  question : LocalizedText
  options : List LocalizedText
  correct : Int
  explanation : LocalizedText
  «section» : Option String
deriving DecidableEq, Repr

/-- The question store: `questions_ref.document(qid).get()` together with
the `.exists` check. -/
abbrev QuestionStore := String → Option QuestionDoc

/-- `ExamAnswer` from `app/models.py`. -/
structure ExamAnswer where
  question_id : String
  answer : Int
deriving DecidableEq, Repr

/-- `ExamSubmit` from `app/models.py`. -/
structure ExamSubmit where
  mode : TestMode
  answers : List ExamAnswer
  «section» : Option LegislationSection
  time_spent : Option Int
deriving DecidableEq, Repr

/-- One `{"correct": _, "total": _}` tally entry. -/
structure SectionStats where
  correct : Nat
  total : Nat
deriving DecidableEq, Repr

/-- `section_results` / `overall_statistics`: a dict from section tag to
tally, as an insertion-ordered association list. -/
abbrev SectionResults := List (String × SectionStats)

/-- Dict lookup on `section_results` (the entry holding the key). -/
def srLookup : SectionResults → String → Option SectionStats
  | [], _ => none
  | p :: ps, s => if p.1 = s then some p.2 else srLookup ps s

/-- `section in section_results`. -/
def srContains : SectionResults → String → Bool
  | [], _ => false
  | p :: ps, s => p.1 == s || srContains ps s

/-- `if section not in section_results: section_results[section] = {"correct": 0, "total": 0}`;
dict insertion appends the new key at the end. -/
def srEnsure (sr : SectionResults) (s : String) : SectionResults :=
  if srContains sr s then sr else sr ++ [(s, ⟨0, 0⟩)]

/-- `section_results[section]["total"] += 1` (rewrites the entry holding the key). -/
def srIncTotal : SectionResults → String → SectionResults
  | [], _ => []
  | p :: ps, s =>
    if p.1 = s then (p.1, ⟨p.2.correct, p.2.total + 1⟩) :: ps
    else p :: srIncTotal ps s

/-- `section_results[section]["correct"] += 1` (rewrites the entry holding the key). -/
def srIncCorrect : SectionResults → String → SectionResults
  | [], _ => []
  | p :: ps, s =>
    if p.1 = s then (p.1, ⟨p.2.correct + 1, p.2.total⟩) :: ps
    else p :: srIncCorrect ps s

/-- `questions_dict[qid] = q_doc.to_dict()`: dict insertion, overwriting the
first entry with the key or appending. -/
def dictInsert : List (String × QuestionDoc) → String → QuestionDoc → List (String × QuestionDoc)
  | [], k, v => [(k, v)]
  | p :: ps, k, v =>
    if p.1 = k then (k, v) :: ps
    else p :: dictInsert ps k v

/-- `answer.question_id in questions_dict` plus `questions_dict[answer.question_id]`. -/
def dictLookup : List (String × QuestionDoc) → String → Option QuestionDoc
  | [], _ => none
  | p :: ps, k => if p.1 = k then some p.2 else dictLookup ps k

/-- The batch resolution loop of `submit_exam` (`app/main.py` 355-362):
for each referenced id fetch the document and keep it when it exists. -/
def buildQuestionsDict (store : QuestionStore) (ids : List String) : List (String × QuestionDoc) :=
  ids.foldl
    (fun d qid =>
      match store qid with
      | some q => dictInsert d qid q
      | none => d)
    []

/-- Mutable state of the scoring loop: `correct_answers` and `section_results`. -/
structure ScoreState where
  correct_answers : Nat
  section_results : SectionResults
deriving DecidableEq, Repr

/-- One iteration of the scoring loop of `submit_exam` (`app/main.py`
375-392).  The Python code computes `section = question.get("section")`
once and tests its truthiness (`if section:`) in two places; here the
truthiness test is matched once and each branch carries both outcomes. -/
def scoreStep (lookupQ : String → Option QuestionDoc) (st : ScoreState) (a : ExamAnswer) :
    ScoreState :=
  match lookupQ a.question_id with
  | none => st
  | some q =>
    match q.«section» with
    | some s =>
      if s ≠ "" then
        let sr1 := srIncTotal (srEnsure st.section_results s) s
        if 0 ≤ a.answer ∧ q.correct = a.answer then
          ⟨st.correct_answers + 1, srIncCorrect sr1 s⟩
        else
          ⟨st.correct_answers, sr1⟩
      else
        if 0 ≤ a.answer ∧ q.correct = a.answer then
          ⟨st.correct_answers + 1, st.section_results⟩
        else
          st
    | none =>
      if 0 ≤ a.answer ∧ q.correct = a.answer then
        ⟨st.correct_answers + 1, st.section_results⟩
      else
        st

/-- The scoring loop of `submit_exam`: batch-resolve the referenced
question ids, then fold the per-answer step over the submitted answers. -/
def submitScore (store : QuestionStore) (exam_data : ExamSubmit) : ScoreState :=
  let question_ids := exam_data.answers.map (fun a => a.question_id)
  let questions_dict := buildQuestionsDict store question_ids
  exam_data.answers.foldl (scoreStep (dictLookup questions_dict)) ⟨0, []⟩

/-- `score = (correct_answers / total_questions * 100) if total_questions > 0 else 0`. -/
def scoreOf (correct_answers total_questions : Nat) : ℚ :=
  if total_questions > 0 then (correct_answers : ℚ) / (total_questions : ℚ) * 100 else 0

/-- The persisted exam record (`exam_dict` in `app/main.py` 400-412),
which also carries every field of the `ExamResult` response model. -/
structure ExamResultR where
  id : String
  user_id : String
  mode : TestMode
  total_questions : Nat
  correct_answers : Nat
  score : ℚ
  passed : Bool
  «section» : Option String
  section_results : SectionResults
  time_spent : Option Int
  answers : List ExamAnswer
  created_at : Nat
deriving DecidableEq, Repr

/-- `submit_exam` (`app/main.py` 346-430) as a function of its
nondeterministic inputs: the store contents, the authenticated user, the
fresh document id and the clock reading. -/
def submitExam (store : QuestionStore) (current_user_id : String) (exam_data : ExamSubmit)
    (exam_id : String) (now : Nat) : ExamResultR :=
  let st := submitScore store exam_data
  let total_questions := exam_data.answers.length
  let score := scoreOf st.correct_answers total_questions
  { id := exam_id
    user_id := current_user_id
    mode := exam_data.mode
    total_questions := total_questions
    correct_answers := st.correct_answers
    score := score
    passed := decide ((70 : ℚ) ≤ score)
    «section» := exam_data.«section».map LegislationSection.value
    section_results := st.section_results
    time_spent := exam_data.time_spent
    answers := exam_data.answers
    created_at := now }

/-- `overall_statistics[section]["correct"] += stats["correct"]` together with
`overall_statistics[section]["total"] += stats["total"]`, after the
`if section not in overall_statistics` initialisation (`app/main.py` 457-461). -/
def srAddEntry : SectionResults → String → SectionStats → SectionResults
  | [], _, _ => []
  | p :: ps, s, v =>
    if p.1 = s then (p.1, ⟨p.2.correct + v.correct, p.2.total + v.total⟩) :: ps
    else p :: srAddEntry ps s v

/-- Folding one stored result's `section_results` dict into the running
`overall_statistics` (`app/main.py` 456-461). -/
def overallStep (acc : SectionResults) (section_results : SectionResults) : SectionResults :=
  section_results.foldl (fun acc p => srAddEntry (srEnsure acc p.1) p.1 p.2) acc

/-- The cumulative statistics loop of `get_exam_history` (`app/main.py`
452-461): fold every stored exam's tally into one dict. -/
def overallStatistics (exams : List ExamResultR) : SectionResults :=
  exams.foldl (fun acc e => overallStep acc e.section_results) []

/-- Insert a result into an already-sorted (descending `created_at`) list,
walking past strictly newer results so that, processing the input left to
right, ties keep their input order. -/
def insertByCreatedDesc (e : ExamResultR) : List ExamResultR → List ExamResultR
  | [] => [e]
  | x :: xs =>
    if e.created_at < x.created_at then x :: insertByCreatedDesc e xs
    else e :: x :: xs

/-- `exam_results.sort(key=lambda x: x.created_at, reverse=True)`
(`app/main.py` 478): a stable sort by creation timestamp, newest first.
Python's stable sort and this stable insertion sort agree on every input. -/
def sortByCreatedDesc : List ExamResultR → List ExamResultR
  | [] => []
  | e :: xs => insertByCreatedDesc e (sortByCreatedDesc xs)

/-- `ExamHistoryResponse` from `app/models.py`. -/
structure ExamHistoryResponse where
  exams : List ExamResultR
  total_exams : Nat
  overall_statistics : SectionResults
deriving DecidableEq, Repr

/-- `get_exam_history` (`app/main.py` 438-484) applied to the list of the
user's stored exam records, in store-returned order: accumulate the
cumulative statistics, sort newest-first, return both. -/
def getExamHistory (exams : List ExamResultR) : ExamHistoryResponse :=
  let overall := overallStatistics exams
  let sorted := sortByCreatedDesc exams
  { exams := sorted, total_exams := sorted.length, overall_statistics := overall }

/-- The `LEGISLATION_NAMES` table from `app/models.py`. -/
def LEGISLATION_NAMES : LegislationSection → LocalizedText
  | LegislationSection.civil_code =>
      ⟨"Азаматтық кодекс", "Гражданский кодекс"⟩
  | LegislationSection.civil_process_code =>
      ⟨"Азаматтық процестік кодекс", "Гражданский процессуальный кодекс"⟩
  | LegislationSection.criminal_code =>
      ⟨"Қылмыстық кодекс", "Уголовный кодекс"⟩
  | LegislationSection.criminal_process_code =>
      ⟨"Қылмыстық процестік кодекс", "Уголовно процессуальный кодекс"⟩
  | LegislationSection.administrative_offenses_code =>
      ⟨"Әкімшілік құқықбұзушылықтар туралы кодекс",
       "Кодекс об административных правонарушениях"⟩
  | LegislationSection.anti_corruption_law =>
      ⟨"Коррупцияға қарсы күрес туралы заң",
       "Закон \"О противодействии коррупции\""⟩
  | LegislationSection.administrative_procedure_code =>
      ⟨"Әкімшілік процедуралық-процестік кодекс",
       "Административный процедурно-процессуальный кодекс"⟩
  | LegislationSection.advocacy_law =>
      ⟨"Адвокаттық қызмет және заңды көмек туралы заң",
       "Закон \"Об адвокатской деятельности и юридической помощи\""⟩
  | LegislationSection.aml_law =>
      ⟨"Қылмыстық жолмен алынған кірістерді легализациялауға (ақтауға) қарсы күрес және терроризмді қаржыландыруға қарсы күрес туралы заң",
       "Закон \"О противодействии легализации (отмыванию) доходов, полученных преступным путем, и финансированию терроризма\""⟩

/-- `QuestionResponse` from `app/models.py`: the language-projected view. -/
structure QuestionResponse where
  id : String
  question : String
  options : List String
  correct : Int
  explanation : String
  «section» : String
  section_name : LocalizedText
deriving DecidableEq, Repr

/-- `[opt[lang] for opt in question_data["options"]]`: each option's
per-language lookup, aborting on the first `KeyError`. -/
def optionsGet (opts : List LocalizedText) (lang : String) : Option (List String) :=
  match opts with
  | [] => some []
  | o :: os =>
    match o.get lang, optionsGet os lang with
    | some v, some vs => some (v :: vs)
    | _, _ => none

/-- `format_question_for_language` (`app/main.py` 244-257).  Evaluation
order follows the Python source: the section tag is fed to the
`LegislationSection` constructor first (raising on an unknown tag), then
`question_data["question"][lang]`, each `opt[lang]`, and
`question_data["explanation"][lang]` are looked up; any `KeyError` aborts
the projection (`none`).  There is no fallback language. -/
def format_question_for_language (question_id : String) (question_data : QuestionDoc)
    (lang : String) : Option QuestionResponse := do
  let sec ← LegislationSection.parse question_data.«section»
  let qtext ← question_data.question.get lang
  let opts ← optionsGet question_data.options lang
  let expl ← question_data.explanation.get lang
  some
    { id := question_id
      question := qtext
      options := opts
      correct := question_data.correct
      explanation := expl
      «section» := sec.value
      section_name := LEGISLATION_NAMES sec }

/-- The per-answer correctness flag of `get_exam_details` (`app/main.py`
529): `user_answer >= 0 and question_dict.get("correct") == user_answer`. -/
def detailIsCorrect (question_dict : QuestionDoc) (user_answer : Int) : Bool :=
  decide (0 ≤ user_answer) && (question_dict.correct == user_answer)

/-!  Derived observations used to state the properties. -/

/-- The scoring loop counts an answer as correct exactly in its innermost
branch: the question resolves, the selected index is non-negative and
equals the stored correct index. -/
def answerCounted (lookupQ : String → Option QuestionDoc) (a : ExamAnswer) : Bool :=
  match lookupQ a.question_id with
  | some q => decide (0 ≤ a.answer) && (q.correct == a.answer)
  | none => false

/-- An answer whose question resolves to a document carrying a truthy
(non-empty) section tag: exactly the answers that touch a section tally. -/
def resolvedWithSection (lookupQ : String → Option QuestionDoc) (a : ExamAnswer) : Bool :=
  match lookupQ a.question_id with
  | some q =>
    match q.«section» with
    | some s => !(s == "")
    | none => false
  | none => false

/-- Sum of the `total` fields over all tally entries. -/
def srTotalSum (sr : SectionResults) : Nat :=
  (sr.map (fun p => p.2.total)).sum

/-- Sum of the `correct` fields over all tally entries. -/
def srCorrectSum (sr : SectionResults) : Nat :=
  (sr.map (fun p => p.2.correct)).sum

/-- The `correct` count a tally reports for a section (0 when absent). -/
def srCorrectLk (sr : SectionResults) (s : String) : Nat :=
  match srLookup sr s with
  | some v => v.correct
  | none => 0

/-- The `total` count a tally reports for a section (0 when absent). -/
def srTotalLk (sr : SectionResults) (s : String) : Nat :=
  match srLookup sr s with
  | some v => v.total
  | none => 0

/-- Sum of the `correct` fields of the entries holding a given key. -/
def entryCorrectSum (sr : SectionResults) (s : String) : Nat :=
  ((sr.filter (fun p => p.1 = s)).map (fun p => p.2.correct)).sum

/-- Sum of the `total` fields of the entries holding a given key. -/
def entryTotalSum (sr : SectionResults) (s : String) : Nat :=
  ((sr.filter (fun p => p.1 = s)).map (fun p => p.2.total)).sum

/-- A tally's keys are pairwise distinct — true of every dict. -/
def keysNodup (sr : SectionResults) : Prop :=
  (sr.map Prod.fst).Nodup

/-!  Concrete fixtures used by the witnesses and counterexamples. -/

/-- A concrete well-formed question document. -/
def exDoc (c : Int) (sec : Option String) : QuestionDoc :=
  { question := ⟨"kz сұрақ", "ru вопрос"⟩
    options := [⟨"kz0", "ru0"⟩, ⟨"kz1", "ru1"⟩, ⟨"kz2", "ru2"⟩, ⟨"kz3", "ru3"⟩]
    correct := c
    explanation := ⟨"kz түсіндірме", "ru объяснение"⟩
    «section» := sec }

/-- A store holding one civil-code question with correct index 0. -/
def exStore1 : QuestionStore := fun qid =>
  if qid = "q1" then some (exDoc 0 (some "civil_code")) else none

/-- A store holding two questions in different sections. -/
def exStore2 : QuestionStore := fun qid =>
  if qid = "q1" then some (exDoc 0 (some "civil_code"))
  else if qid = "q2" then some (exDoc 2 (some "criminal_code"))
  else none

/-- A store whose only question carries no section tag. -/
def exStoreNoSec : QuestionStore := fun qid =>
  if qid = "q1" then some (exDoc 0 none) else none

/-- A one-answer submission choosing option 0 on `q1`. -/
def exSub1 : ExamSubmit :=
  { mode := TestMode.exam, answers := [⟨"q1", 0⟩], «section» := none, time_spent := none }

/-- A submission with one wrong and one unanswered (negative) answer. -/
def exSub2 : ExamSubmit :=
  { mode := TestMode.exam, answers := [⟨"q1", 1⟩, ⟨"q2", -1⟩], «section» := none,
    time_spent := none }

/-- A submission in which every answer is unanswered. -/
def exSubNeg : ExamSubmit :=
  { mode := TestMode.exam, answers := [⟨"q1", -1⟩, ⟨"q2", -5⟩, ⟨"zz", -1⟩], «section» := none,
    time_spent := none }

/-- A submission referencing one stored and one missing question. -/
def exSubMissing : ExamSubmit :=
  { mode := TestMode.exam, answers := [⟨"q_missing", 0⟩, ⟨"q1", 0⟩], «section» := none,
    time_spent := none }

/-- A stored exam record with a chosen tally and timestamp. -/
def exRes (i : String) (sr : SectionResults) (t : Nat) : ExamResultR :=
  { id := i, user_id := "u", mode := TestMode.exam, total_questions := 2, correct_answers := 1,
    score := 50, passed := false, «section» := none, section_results := sr,
    time_spent := none, answers := [], created_at := t }

/-!  Resolution: the batch-built `questions_dict` agrees with the store on
every referenced id. -/

theorem dictLookup_dictInsert (d : List (String × QuestionDoc)) (k : String) (v : QuestionDoc)
    (x : String) :
    dictLookup (dictInsert d k v) x = if k = x then some v else dictLookup d x := by
  induction d with
  | nil => rfl
  | cons p ps ih =>
    simp only [dictInsert]
    by_cases hp : p.1 = k
    · rw [if_pos hp]
      simp only [dictLookup]
      by_cases hk : k = x
      · simp [hk]
      · have hpx : ¬ p.1 = x := fun h => hk (hp ▸ h)
        simp [hk, hpx]
    · rw [if_neg hp]
      simp only [dictLookup]
      by_cases hpx : p.1 = x
      · have hk : ¬ k = x := fun h => hp (by rw [hpx, h])
        simp [hpx, hk]
      · simp [hpx, ih]

theorem dictLookup_foldl_insert (store : QuestionStore) (ids : List String)
    (d : List (String × QuestionDoc)) (k : String) :
    dictLookup
        (ids.foldl
          (fun d qid =>
            match store qid with
            | some q => dictInsert d qid q
            | none => d)
          d)
        k
      = if k ∈ ids ∧ (store k).isSome then store k else dictLookup d k := by
  induction ids generalizing d with
  | nil => simp
  | cons i rest ih =>
    simp only [List.foldl_cons]
    rw [ih]
    by_cases hmem : k ∈ rest
    · by_cases hsome : (store k).isSome
      · simp [hmem, hsome]
      · simp only [hmem, hsome, and_true, and_false, if_false, List.mem_cons, or_true,
          true_and]
        cases hi : store i with
        | none => rfl
        | some q =>
          rw [dictLookup_dictInsert]
          by_cases hk : i = k
          · rw [← hk] at hsome
            rw [hi] at hsome
            simp at hsome
          · simp [hk]
    · simp only [hmem, false_and, if_false, List.mem_cons, or_false]
      cases hi : store i with
      | none =>
        by_cases hk : k = i
        · subst hk
          simp [hi]
        · simp [hk]
      | some q =>
        rw [dictLookup_dictInsert]
        by_cases hk : i = k
        · subst hk
          simp [hi]
        · have hk2 : ¬ k = i := fun h => hk h.symm
          simp [hk, hk2]

theorem dictLookup_buildQuestionsDict (store : QuestionStore) (ids : List String) (k : String)
    (h : k ∈ ids) :
    dictLookup (buildQuestionsDict store ids) k = store k := by
  rw [buildQuestionsDict, dictLookup_foldl_insert]
  by_cases hsome : (store k).isSome
  · simp [h, hsome]
  · simp only [h, hsome, and_false, true_and, if_false, dictLookup]
    cases hs : store k with
    | none => rfl
    | some q => rw [hs] at hsome; simp at hsome

theorem foldl_scoreStep_congr (f g : String → Option QuestionDoc) (l : List ExamAnswer)
    (st : ScoreState) (h : ∀ a ∈ l, f a.question_id = g a.question_id) :
    l.foldl (scoreStep f) st = l.foldl (scoreStep g) st := by
  induction l generalizing st with
  | nil => rfl
  | cons a l ih =>
    have ha : f a.question_id = g a.question_id := h a (List.mem_cons_self a l)
    have hstep : scoreStep f st a = scoreStep g st a := by
      simp only [scoreStep, ha]
    simp only [List.foldl_cons, hstep]
    exact ih _ (fun x hx => h x (List.mem_cons_of_mem a hx))

/-- The scoring loop of `submit_exam` looks every submitted id up in the
batch dict, which agrees with the store there: the loop folds the raw
store lookups. -/
theorem submitScore_eq_foldl (store : QuestionStore) (sub : ExamSubmit) :
    submitScore store sub = sub.answers.foldl (scoreStep store) ⟨0, []⟩ := by
  rw [submitScore]
  apply foldl_scoreStep_congr
  intro a ha
  exact dictLookup_buildQuestionsDict store _ a.question_id
    (List.mem_map_of_mem (fun a => a.question_id) ha)

/-!  The `correct_answers` counter. -/

theorem scoreStep_correct_answers (f : String → Option QuestionDoc) (st : ScoreState)
    (a : ExamAnswer) :
    (scoreStep f st a).correct_answers
      = st.correct_answers + (if answerCounted f a then 1 else 0) := by
  cases hf : f a.question_id with
  | none => simp [scoreStep, answerCounted, hf]
  | some q =>
    by_cases hc : 0 ≤ a.answer ∧ q.correct = a.answer
    · have hb : (decide (0 ≤ a.answer) && (q.correct == a.answer)) = true := by
        simp [hc.1, hc.2]
      cases hs : q.«section» with
      | none => simp [scoreStep, answerCounted, hf, hs, hc, hb]
      | some s =>
        by_cases he : s ≠ "" <;> simp [scoreStep, answerCounted, hf, hs, he, hc, hb]
    · have hb : (decide (0 ≤ a.answer) && (q.correct == a.answer)) = false := by
        rcases not_and_or.mp hc with h | h <;> simp [h]
      cases hs : q.«section» with
      | none => simp [scoreStep, answerCounted, hf, hs, hc, hb]
      | some s =>
        by_cases he : s ≠ "" <;> simp [scoreStep, answerCounted, hf, hs, he, hc, hb]

theorem foldl_correct_answers (f : String → Option QuestionDoc) (l : List ExamAnswer)
    (st : ScoreState) :
    (l.foldl (scoreStep f) st).correct_answers
      = st.correct_answers + l.countP (answerCounted f) := by
  induction l generalizing st with
  | nil => simp
  | cons a l ih =>
    simp only [List.foldl_cons, List.countP_cons]
    rw [ih, scoreStep_correct_answers]
    by_cases hc : answerCounted f a <;> simp [hc] <;> omega

/-- `correct_answers` of a submitted exam is the number of answers the
innermost branch counted. -/
theorem submitExam_correct_answers (store : QuestionStore) (uid : String) (sub : ExamSubmit)
    (eid : String) (now : Nat) :
    (submitExam store uid sub eid now).correct_answers
      = sub.answers.countP (answerCounted store) := by
  show (submitScore store sub).correct_answers = _
  rw [submitScore_eq_foldl, foldl_correct_answers]
  simp

/-!  Elementary facts about the tally operations. -/

theorem srContains_append (sr ts : SectionResults) (x : String) :
    srContains (sr ++ ts) x = (srContains sr x || srContains ts x) := by
  induction sr with
  | nil => simp [srContains]
  | cons p ps ih => simp [srContains, ih, Bool.or_assoc]

theorem srContains_srEnsure_self (sr : SectionResults) (s : String) :
    srContains (srEnsure sr s) s = true := by
  rw [srEnsure]
  by_cases h : srContains sr s
  · simp [h]
  · simp [h, srContains_append, srContains]

theorem srContains_srEnsure_of (sr : SectionResults) (s x : String)
    (h : srContains sr x = true) :
    srContains (srEnsure sr s) x = true := by
  rw [srEnsure]
  by_cases hc : srContains sr s
  · simp [hc, h]
  · simp [hc, srContains_append, h]

theorem srContains_cons_of_ne (p : String × SectionStats) (ps : SectionResults) (s : String)
    (hp : ¬ p.1 = s) (h : srContains (p :: ps) s = true) :
    srContains ps s = true := by
  simp only [srContains, Bool.or_eq_true, beq_iff_eq] at h
  rcases h with h1 | h2
  · exact absurd h1 hp
  · exact h2

theorem srTotalSum_append (sr : SectionResults) (p : String × SectionStats) :
    srTotalSum (sr ++ [p]) = srTotalSum sr + p.2.total := by
  simp [srTotalSum]

theorem srCorrectSum_append (sr : SectionResults) (p : String × SectionStats) :
    srCorrectSum (sr ++ [p]) = srCorrectSum sr + p.2.correct := by
  simp [srCorrectSum]

theorem srTotalSum_srEnsure (sr : SectionResults) (s : String) :
    srTotalSum (srEnsure sr s) = srTotalSum sr := by
  rw [srEnsure]
  by_cases h : srContains sr s
  · simp [h]
  · simp [h, srTotalSum_append]

theorem srCorrectSum_srEnsure (sr : SectionResults) (s : String) :
    srCorrectSum (srEnsure sr s) = srCorrectSum sr := by
  rw [srEnsure]
  by_cases h : srContains sr s
  · simp [h]
  · simp [h, srCorrectSum_append]

theorem srTotalSum_srIncTotal (sr : SectionResults) (s : String)
    (h : srContains sr s = true) :
    srTotalSum (srIncTotal sr s) = srTotalSum sr + 1 := by
  induction sr with
  | nil => simp [srContains] at h
  | cons p ps ih =>
    by_cases hp : p.1 = s
    · simp [srIncTotal, hp, srTotalSum]
      omega
    · have hps := srContains_cons_of_ne p ps s hp h
      simp only [srIncTotal, hp, if_false, srTotalSum, List.map_cons, List.sum_cons] at ih ⊢
      rw [ih hps]
      omega

theorem srCorrectSum_srIncTotal (sr : SectionResults) (s : String) :
    srCorrectSum (srIncTotal sr s) = srCorrectSum sr := by
  induction sr with
  | nil => simp [srIncTotal]
  | cons p ps ih =>
    by_cases hp : p.1 = s <;>
      simp only [srIncTotal, hp, if_true, if_false, srCorrectSum, List.map_cons,
        List.sum_cons] at ih ⊢ <;> omega

theorem srTotalSum_srIncCorrect (sr : SectionResults) (s : String) :
    srTotalSum (srIncCorrect sr s) = srTotalSum sr := by
  induction sr with
  | nil => simp [srIncCorrect]
  | cons p ps ih =>
    by_cases hp : p.1 = s <;>
      simp only [srIncCorrect, hp, if_true, if_false, srTotalSum, List.map_cons,
        List.sum_cons] at ih ⊢ <;> omega

theorem srCorrectSum_srIncCorrect (sr : SectionResults) (s : String)
    (h : srContains sr s = true) :
    srCorrectSum (srIncCorrect sr s) = srCorrectSum sr + 1 := by
  induction sr with
  | nil => simp [srContains] at h
  | cons p ps ih =>
    by_cases hp : p.1 = s
    · simp [srIncCorrect, hp, srCorrectSum]
      omega
    · have hps := srContains_cons_of_ne p ps s hp h
      simp only [srIncCorrect, hp, if_false, srCorrectSum, List.map_cons, List.sum_cons] at ih ⊢
      rw [ih hps]
      omega

theorem srContains_srIncTotal (sr : SectionResults) (s x : String) :
    srContains (srIncTotal sr s) x = srContains sr x := by
  induction sr with
  | nil => simp [srIncTotal]
  | cons p ps ih =>
    by_cases hp : p.1 = s <;> simp [srIncTotal, hp, srContains, ih]

theorem srContains_srIncCorrect (sr : SectionResults) (s x : String) :
    srContains (srIncCorrect sr s) x = srContains sr x := by
  induction sr with
  | nil => simp [srIncCorrect]
  | cons p ps ih =>
    by_cases hp : p.1 = s <;> simp [srIncCorrect, hp, srContains, ih]

/-!  Section totals across the scoring loop. -/

theorem scoreStep_srTotalSum (f : String → Option QuestionDoc) (st : ScoreState)
    (a : ExamAnswer) :
    srTotalSum (scoreStep f st a).section_results
      = srTotalSum st.section_results + (if resolvedWithSection f a then 1 else 0) := by
  cases hf : f a.question_id with
  | none => simp [scoreStep, resolvedWithSection, hf]
  | some q =>
    cases hs : q.«section» with
    | none =>
      by_cases hc : 0 ≤ a.answer ∧ q.correct = a.answer <;>
        simp [scoreStep, resolvedWithSection, hf, hs, hc]
    | some s =>
      by_cases he : s ≠ ""
      · have hinc : srTotalSum (srIncTotal (srEnsure st.section_results s) s)
            = srTotalSum st.section_results + 1 := by
          rw [srTotalSum_srIncTotal _ _ (srContains_srEnsure_self _ _), srTotalSum_srEnsure]
        by_cases hc : 0 ≤ a.answer ∧ q.correct = a.answer <;>
          simp [scoreStep, resolvedWithSection, hf, hs, he, hc, srTotalSum_srIncCorrect, hinc]
      · by_cases hc : 0 ≤ a.answer ∧ q.correct = a.answer <;>
          simp [scoreStep, resolvedWithSection, hf, hs, he, hc]

theorem foldl_srTotalSum (f : String → Option QuestionDoc) (l : List ExamAnswer)
    (st : ScoreState) :
    srTotalSum (l.foldl (scoreStep f) st).section_results
      = srTotalSum st.section_results + l.countP (resolvedWithSection f) := by
  induction l generalizing st with
  | nil => simp
  | cons a l ih =>
    simp only [List.foldl_cons, List.countP_cons]
    rw [ih, scoreStep_srTotalSum]
    by_cases hc : resolvedWithSection f a <;> simp [hc] <;> omega

/-- The sum over all sections of the tally's `total` fields equals the
number of answers that resolved to a question with a truthy section tag. -/
theorem submitExam_srTotalSum (store : QuestionStore) (uid : String) (sub : ExamSubmit)
    (eid : String) (now : Nat) :
    srTotalSum (submitExam store uid sub eid now).section_results
      = sub.answers.countP (resolvedWithSection store) := by
  show srTotalSum (submitScore store sub).section_results = _
  rw [submitScore_eq_foldl, foldl_srTotalSum]
  simp [srTotalSum]

/-!  The correct-sum of the tally never exceeds the `correct_answers` counter. -/

theorem scoreStep_srCorrectSum_le (f : String → Option QuestionDoc) (st : ScoreState)
    (a : ExamAnswer) (h : srCorrectSum st.section_results ≤ st.correct_answers) :
    srCorrectSum (scoreStep f st a).section_results ≤ (scoreStep f st a).correct_answers := by
  cases hf : f a.question_id with
  | none => simpa [scoreStep, hf] using h
  | some q =>
    cases hs : q.«section» with
    | none =>
      by_cases hc : 0 ≤ a.answer ∧ q.correct = a.answer <;>
        simp [scoreStep, hf, hs, hc] <;> omega
    | some s =>
      by_cases he : s ≠ ""
      · have hen : srCorrectSum (srIncTotal (srEnsure st.section_results s) s)
            = srCorrectSum st.section_results := by
          rw [srCorrectSum_srIncTotal, srCorrectSum_srEnsure]
        have hpres : srContains (srIncTotal (srEnsure st.section_results s) s) s = true := by
          rw [srContains_srIncTotal]
          exact srContains_srEnsure_self _ _
        by_cases hc : 0 ≤ a.answer ∧ q.correct = a.answer
        · have hgoal : scoreStep f st a
              = ⟨st.correct_answers + 1,
                 srIncCorrect (srIncTotal (srEnsure st.section_results s) s) s⟩ := by
            simp only [scoreStep, hf, hs]
            rw [if_pos he, if_pos hc]
          rw [hgoal]
          show srCorrectSum (srIncCorrect (srIncTotal (srEnsure st.section_results s) s) s)
              ≤ st.correct_answers + 1
          rw [srCorrectSum_srIncCorrect _ _ hpres, hen]
          omega
        · have hgoal : scoreStep f st a
              = ⟨st.correct_answers,
                 srIncTotal (srEnsure st.section_results s) s⟩ := by
            simp only [scoreStep, hf, hs]
            rw [if_pos he, if_neg hc]
          rw [hgoal]
          show srCorrectSum (srIncTotal (srEnsure st.section_results s) s)
              ≤ st.correct_answers
          rw [hen]
          omega
      · by_cases hc : 0 ≤ a.answer ∧ q.correct = a.answer <;>
          simp [scoreStep, hf, hs, he, hc] <;> omega

theorem foldl_srCorrectSum_le (f : String → Option QuestionDoc) (l : List ExamAnswer)
    (st : ScoreState) (h : srCorrectSum st.section_results ≤ st.correct_answers) :
    srCorrectSum (l.foldl (scoreStep f) st).section_results
      ≤ (l.foldl (scoreStep f) st).correct_answers := by
  induction l generalizing st with
  | nil => simpa using h
  | cons a l ih =>
    simp only [List.foldl_cons]
    exact ih _ (scoreStep_srCorrectSum_le f st a h)

/-- The sum over all sections of the tally's `correct` fields never exceeds
the submission-level `correct_answers`. -/
theorem submitExam_srCorrectSum_le (store : QuestionStore) (uid : String) (sub : ExamSubmit)
    (eid : String) (now : Nat) :
    srCorrectSum (submitExam store uid sub eid now).section_results
      ≤ (submitExam store uid sub eid now).correct_answers := by
  show srCorrectSum (submitScore store sub).section_results
      ≤ (submitScore store sub).correct_answers
  rw [submitScore_eq_foldl]
  exact foldl_srCorrectSum_le store sub.answers ⟨0, []⟩ (by simp [srCorrectSum])

/-!  Per-entry well-formedness: `correct <= total` in every tally entry. -/

/-- Every entry of the tally satisfies `correct <= total`. -/
def srWF (sr : SectionResults) : Prop :=
  ∀ p ∈ sr, p.2.correct ≤ p.2.total

theorem srWF_srEnsure (sr : SectionResults) (s : String) (h : srWF sr) :
    srWF (srEnsure sr s) := by
  rw [srEnsure]
  by_cases hc : srContains sr s
  · simpa [hc] using h
  · simp only [hc, if_false]
    intro p hp
    rcases List.mem_append.mp hp with h1 | h2
    · exact h p h1
    · simp only [List.mem_singleton] at h2
      subst h2
      exact Nat.le_refl 0

theorem srWF_srIncTotal (sr : SectionResults) (s : String) (h : srWF sr) :
    srWF (srIncTotal sr s) := by
  induction sr with
  | nil => simpa [srIncTotal] using h
  | cons p ps ih =>
    have hp0 : p.2.correct ≤ p.2.total := h p (List.mem_cons_self p ps)
    have hps : srWF ps := fun x hx => h x (List.mem_cons_of_mem p hx)
    by_cases hp : p.1 = s
    · simp only [srIncTotal, hp, if_true]
      intro x hx
      rcases List.mem_cons.mp hx with h1 | h2
      · subst h1; simpa using Nat.le_succ_of_le hp0
      · exact hps x h2
    · simp only [srIncTotal, hp, if_false]
      intro x hx
      rcases List.mem_cons.mp hx with h1 | h2
      · subst h1; exact hp0
      · exact ih hps x h2

/-- `srIncCorrect` right after `srIncTotal` on the same key keeps every
entry well-formed: the entry it bumps has just had its total bumped. -/
theorem srWF_srIncCorrect_srIncTotal (sr : SectionResults) (s : String) (h : srWF sr) :
    srWF (srIncCorrect (srIncTotal sr s) s) := by
  induction sr with
  | nil => simpa [srIncTotal, srIncCorrect] using h
  | cons p ps ih =>
    have hp0 : p.2.correct ≤ p.2.total := h p (List.mem_cons_self p ps)
    have hps : srWF ps := fun x hx => h x (List.mem_cons_of_mem p hx)
    by_cases hp : p.1 = s
    · simp only [srIncTotal, srIncCorrect, hp, if_true]
      intro x hx
      rcases List.mem_cons.mp hx with h1 | h2
      · subst h1; simpa using Nat.succ_le_succ hp0
      · exact hps x h2
    · simp only [srIncTotal, srIncCorrect, hp, if_false]
      intro x hx
      rcases List.mem_cons.mp hx with h1 | h2
      · subst h1; exact hp0
      · exact ih hps x h2

theorem srWF_scoreStep (f : String → Option QuestionDoc) (st : ScoreState) (a : ExamAnswer)
    (h : srWF st.section_results) :
    srWF (scoreStep f st a).section_results := by
  cases hf : f a.question_id with
  | none => simpa [scoreStep, hf] using h
  | some q =>
    cases hs : q.«section» with
    | none =>
      by_cases hc : 0 ≤ a.answer ∧ q.correct = a.answer <;>
        simpa [scoreStep, hf, hs, hc] using h
    | some s =>
      by_cases he : s ≠ ""
      · by_cases hc : 0 ≤ a.answer ∧ q.correct = a.answer
        · have hgoal : scoreStep f st a
              = ⟨st.correct_answers + 1,
                 srIncCorrect (srIncTotal (srEnsure st.section_results s) s) s⟩ := by
            simp only [scoreStep, hf, hs]
            rw [if_pos he, if_pos hc]
          rw [hgoal]
          exact srWF_srIncCorrect_srIncTotal _ _ (srWF_srEnsure _ _ h)
        · have hgoal : scoreStep f st a
              = ⟨st.correct_answers, srIncTotal (srEnsure st.section_results s) s⟩ := by
            simp only [scoreStep, hf, hs]
            rw [if_pos he, if_neg hc]
          rw [hgoal]
          exact srWF_srIncTotal _ _ (srWF_srEnsure _ _ h)
      · by_cases hc : 0 ≤ a.answer ∧ q.correct = a.answer <;>
          simpa [scoreStep, hf, hs, he, hc] using h

theorem srWF_foldl (f : String → Option QuestionDoc) (l : List ExamAnswer) (st : ScoreState)
    (h : srWF st.section_results) :
    srWF (l.foldl (scoreStep f) st).section_results := by
  induction l generalizing st with
  | nil => simpa using h
  | cons a l ih =>
    simp only [List.foldl_cons]
    exact ih _ (srWF_scoreStep f st a h)

/-!  Lookup-level facts about the tally operations (used for the
exactly-one-section property). -/

theorem srTotalLk_nil (x : String) : srTotalLk [] x = 0 := rfl

theorem srTotalLk_cons (p : String × SectionStats) (ps : SectionResults) (x : String) :
    srTotalLk (p :: ps) x = if p.1 = x then p.2.total else srTotalLk ps x := by
  by_cases hp : p.1 = x <;> simp [srTotalLk, srLookup, hp]

theorem srCorrectLk_nil (x : String) : srCorrectLk [] x = 0 := rfl

theorem srCorrectLk_cons (p : String × SectionStats) (ps : SectionResults) (x : String) :
    srCorrectLk (p :: ps) x = if p.1 = x then p.2.correct else srCorrectLk ps x := by
  by_cases hp : p.1 = x <;> simp [srCorrectLk, srLookup, hp]

theorem srTotalLk_append (sr ts : SectionResults) (x : String) :
    srTotalLk (sr ++ ts) x
      = if srContains sr x then srTotalLk sr x else srTotalLk ts x := by
  induction sr with
  | nil => simp [srContains, srTotalLk_nil]
  | cons p ps ih =>
    by_cases hp : p.1 = x <;>
      simp [srContains, srTotalLk_cons, hp, ih]

theorem srCorrectLk_append (sr ts : SectionResults) (x : String) :
    srCorrectLk (sr ++ ts) x
      = if srContains sr x then srCorrectLk sr x else srCorrectLk ts x := by
  induction sr with
  | nil => simp [srContains, srCorrectLk_nil]
  | cons p ps ih =>
    by_cases hp : p.1 = x <;>
      simp [srContains, srCorrectLk_cons, hp, ih]

theorem srTotalLk_not_contains (sr : SectionResults) (x : String)
    (h : ¬ srContains sr x = true) : srTotalLk sr x = 0 := by
  induction sr with
  | nil => rfl
  | cons p ps ih =>
    have hp : ¬ p.1 = x := by
      intro hh
      exact h (by simp [srContains, hh])
    have hps : ¬ srContains ps x = true := by
      intro hh
      exact h (by simp [srContains, hh])
    simp [srTotalLk_cons, hp, ih hps]

theorem srCorrectLk_not_contains (sr : SectionResults) (x : String)
    (h : ¬ srContains sr x = true) : srCorrectLk sr x = 0 := by
  induction sr with
  | nil => rfl
  | cons p ps ih =>
    have hp : ¬ p.1 = x := by
      intro hh
      exact h (by simp [srContains, hh])
    have hps : ¬ srContains ps x = true := by
      intro hh
      exact h (by simp [srContains, hh])
    simp [srCorrectLk_cons, hp, ih hps]

theorem srTotalLk_srEnsure (sr : SectionResults) (s x : String) :
    srTotalLk (srEnsure sr s) x = srTotalLk sr x := by
  rw [srEnsure]
  by_cases hc : srContains sr s
  · simp [hc]
  · rw [if_neg hc, srTotalLk_append]
    by_cases hx : srContains sr x
    · simp [hx]
    · simp only [hx, if_false]
      rw [srTotalLk_not_contains sr x hx]
      by_cases hsx : s = x <;> simp [srTotalLk_cons, srTotalLk_nil, hsx]

theorem srCorrectLk_srEnsure (sr : SectionResults) (s x : String) :
    srCorrectLk (srEnsure sr s) x = srCorrectLk sr x := by
  rw [srEnsure]
  by_cases hc : srContains sr s
  · simp [hc]
  · rw [if_neg hc, srCorrectLk_append]
    by_cases hx : srContains sr x
    · simp [hx]
    · simp only [hx, if_false]
      rw [srCorrectLk_not_contains sr x hx]
      by_cases hsx : s = x <;> simp [srCorrectLk_cons, srCorrectLk_nil, hsx]

theorem srTotalLk_srIncTotal_self (sr : SectionResults) (s : String)
    (h : srContains sr s = true) :
    srTotalLk (srIncTotal sr s) s = srTotalLk sr s + 1 := by
  induction sr with
  | nil => simp [srContains] at h
  | cons p ps ih =>
    by_cases hp : p.1 = s
    · simp [srIncTotal, hp, srTotalLk_cons]
    · have hps := srContains_cons_of_ne p ps s hp h
      simp [srIncTotal, hp, srTotalLk_cons, ih hps]

theorem srTotalLk_srIncTotal_other (sr : SectionResults) (s x : String) (hx : ¬ x = s) :
    srTotalLk (srIncTotal sr s) x = srTotalLk sr x := by
  induction sr with
  | nil => simp [srIncTotal]
  | cons p ps ih =>
    by_cases hp : p.1 = s
    · have hpx : ¬ p.1 = x := fun hh => hx (by rw [← hh, hp])
      have hsx : ¬ s = x := fun hh => hx hh.symm
      simp [srIncTotal, hp, srTotalLk_cons, hpx, hsx]
    · simp [srIncTotal, hp, srTotalLk_cons, ih]

theorem srTotalLk_srIncCorrect (sr : SectionResults) (s x : String) :
    srTotalLk (srIncCorrect sr s) x = srTotalLk sr x := by
  induction sr with
  | nil => simp [srIncCorrect]
  | cons p ps ih =>
    by_cases hp : p.1 = s
    · by_cases hpx : p.1 = x <;> simp [srIncCorrect, hp, srTotalLk_cons, hpx]
    · simp [srIncCorrect, hp, srTotalLk_cons, ih]

/-!  Behaviour of one scoring step on sections and on unresolved answers. -/

theorem scoreStep_unresolved (f : String → Option QuestionDoc) (st : ScoreState)
    (a : ExamAnswer) (hf : f a.question_id = none) : scoreStep f st a = st := by
  simp [scoreStep, hf]

theorem srContains_srEnsure_srIncTotal_srIncCorrect (sr : SectionResults) (s x : String)
    (h : srContains sr x = true) :
    srContains (srIncCorrect (srIncTotal (srEnsure sr s) s) s) x = true := by
  rw [srContains_srIncCorrect, srContains_srIncTotal]
  exact srContains_srEnsure_of sr s x h

theorem srContains_scoreStep_mono (f : String → Option QuestionDoc) (st : ScoreState)
    (a : ExamAnswer) (x : String) (h : srContains st.section_results x = true) :
    srContains (scoreStep f st a).section_results x = true := by
  cases hf : f a.question_id with
  | none => simpa [scoreStep, hf] using h
  | some q =>
    cases hs : q.«section» with
    | none =>
      by_cases hc : 0 ≤ a.answer ∧ q.correct = a.answer <;>
        simpa [scoreStep, hf, hs, hc] using h
    | some s =>
      by_cases he : s ≠ ""
      · by_cases hc : 0 ≤ a.answer ∧ q.correct = a.answer
        · have hgoal : scoreStep f st a
              = ⟨st.correct_answers + 1,
                 srIncCorrect (srIncTotal (srEnsure st.section_results s) s) s⟩ := by
            simp only [scoreStep, hf, hs]
            rw [if_pos he, if_pos hc]
          rw [hgoal]
          exact srContains_srEnsure_srIncTotal_srIncCorrect _ _ _ h
        · have hgoal : scoreStep f st a
              = ⟨st.correct_answers, srIncTotal (srEnsure st.section_results s) s⟩ := by
            simp only [scoreStep, hf, hs]
            rw [if_pos he, if_neg hc]
          rw [hgoal]
          show srContains (srIncTotal (srEnsure st.section_results s) s) x = true
          rw [srContains_srIncTotal]
          exact srContains_srEnsure_of _ _ _ h
      · by_cases hc : 0 ≤ a.answer ∧ q.correct = a.answer <;>
          simpa [scoreStep, hf, hs, he, hc] using h

theorem foldl_srContains_mono (f : String → Option QuestionDoc) (l : List ExamAnswer)
    (st : ScoreState) (x : String) (h : srContains st.section_results x = true) :
    srContains (l.foldl (scoreStep f) st).section_results x = true := by
  induction l generalizing st with
  | nil => simpa using h
  | cons a l ih =>
    simp only [List.foldl_cons]
    exact ih _ (srContains_scoreStep_mono f st a x h)

/-- One step on an answer that resolves to a question with a truthy section
tag: the tally entry for that section exists afterwards, its `total` grows
by exactly one, every other section's `total` is unchanged, and the grand
total grows by exactly one. -/
theorem scoreStep_resolved_section (f : String → Option QuestionDoc) (st : ScoreState)
    (a : ExamAnswer) (q : QuestionDoc) (s : String) (hf : f a.question_id = some q)
    (hs : q.«section» = some s) (he : s ≠ "") :
    srContains (scoreStep f st a).section_results s = true ∧
    srTotalLk (scoreStep f st a).section_results s = srTotalLk st.section_results s + 1 ∧
    (∀ x, ¬ x = s →
      srTotalLk (scoreStep f st a).section_results x = srTotalLk st.section_results x) ∧
    srTotalSum (scoreStep f st a).section_results = srTotalSum st.section_results + 1 := by
  have hpres : srContains (srEnsure st.section_results s) s = true :=
    srContains_srEnsure_self _ _
  have htot : srTotalLk (srIncTotal (srEnsure st.section_results s) s) s
      = srTotalLk st.section_results s + 1 := by
    rw [srTotalLk_srIncTotal_self _ _ hpres, srTotalLk_srEnsure]
  have hoth : ∀ x, ¬ x = s → srTotalLk (srIncTotal (srEnsure st.section_results s) s) x
      = srTotalLk st.section_results x := by
    intro x hx
    rw [srTotalLk_srIncTotal_other _ _ _ hx, srTotalLk_srEnsure]
  have hsum : srTotalSum (srIncTotal (srEnsure st.section_results s) s)
      = srTotalSum st.section_results + 1 := by
    rw [srTotalSum_srIncTotal _ _ hpres, srTotalSum_srEnsure]
  by_cases hc : 0 ≤ a.answer ∧ q.correct = a.answer
  · have hgoal : scoreStep f st a
        = ⟨st.correct_answers + 1,
           srIncCorrect (srIncTotal (srEnsure st.section_results s) s) s⟩ := by
      simp only [scoreStep, hf, hs]
      rw [if_pos he, if_pos hc]
    rw [hgoal]
    refine ⟨?_, ?_, ?_, ?_⟩
    · show srContains (srIncCorrect (srIncTotal (srEnsure st.section_results s) s) s) s = true
      rw [srContains_srIncCorrect, srContains_srIncTotal]
      exact hpres
    · show srTotalLk (srIncCorrect (srIncTotal (srEnsure st.section_results s) s) s) s = _
      rw [srTotalLk_srIncCorrect]
      exact htot
    · intro x hx
      show srTotalLk (srIncCorrect (srIncTotal (srEnsure st.section_results s) s) s) x = _
      rw [srTotalLk_srIncCorrect]
      exact hoth x hx
    · show srTotalSum (srIncCorrect (srIncTotal (srEnsure st.section_results s) s) s) = _
      rw [srTotalSum_srIncCorrect]
      exact hsum
  · have hgoal : scoreStep f st a
        = ⟨st.correct_answers, srIncTotal (srEnsure st.section_results s) s⟩ := by
      simp only [scoreStep, hf, hs]
      rw [if_pos he, if_neg hc]
    rw [hgoal]
    refine ⟨?_, htot, hoth, hsum⟩
    show srContains (srIncTotal (srEnsure st.section_results s) s) s = true
    rw [srContains_srIncTotal]
    exact hpres

/-!  The newest-first sort: a permutation, sorted descending, stable. -/

theorem insertByCreatedDesc_cons (e x : ExamResultR) (xs : List ExamResultR) :
    insertByCreatedDesc e (x :: xs)
      = if e.created_at < x.created_at then x :: insertByCreatedDesc e xs
        else e :: x :: xs := rfl

theorem insertByCreatedDesc_perm (e : ExamResultR) (l : List ExamResultR) :
    (insertByCreatedDesc e l).Perm (e :: l) := by
  induction l with
  | nil => exact List.Perm.refl _
  | cons x xs ih =>
    rw [insertByCreatedDesc_cons]
    by_cases h : e.created_at < x.created_at
    · rw [if_pos h]
      exact (List.Perm.cons x ih).trans (List.Perm.swap e x xs)
    · rw [if_neg h]

theorem sortByCreatedDesc_perm (l : List ExamResultR) :
    (sortByCreatedDesc l).Perm l := by
  induction l with
  | nil => exact List.Perm.refl _
  | cons e xs ih =>
    show (insertByCreatedDesc e (sortByCreatedDesc xs)).Perm (e :: xs)
    exact (insertByCreatedDesc_perm e (sortByCreatedDesc xs)).trans (List.Perm.cons e ih)

theorem mem_insertByCreatedDesc (e y : ExamResultR) (l : List ExamResultR)
    (h : y ∈ insertByCreatedDesc e l) : y = e ∨ y ∈ l :=
  List.mem_cons.mp ((insertByCreatedDesc_perm e l).mem_iff.mp h)

theorem pairwise_insertByCreatedDesc (e : ExamResultR) (l : List ExamResultR)
    (h : l.Pairwise (fun a b => b.created_at ≤ a.created_at)) :
    (insertByCreatedDesc e l).Pairwise (fun a b => b.created_at ≤ a.created_at) := by
  induction l with
  | nil => simp [insertByCreatedDesc]
  | cons x xs ih =>
    rcases List.pairwise_cons.mp h with ⟨hx, hxs⟩
    rw [insertByCreatedDesc_cons]
    by_cases hlt : e.created_at < x.created_at
    · rw [if_pos hlt]
      refine List.pairwise_cons.mpr ⟨?_, ih hxs⟩
      intro y hy
      rcases mem_insertByCreatedDesc e y xs hy with h1 | h2
      · subst h1; exact Nat.le_of_lt hlt
      · exact hx y h2
    · rw [if_neg hlt]
      refine List.pairwise_cons.mpr ⟨?_, h⟩
      intro y hy
      rcases List.mem_cons.mp hy with h1 | h2
      · subst h1; exact Nat.le_of_not_lt hlt
      · exact Nat.le_trans (hx y h2) (Nat.le_of_not_lt hlt)

theorem sortByCreatedDesc_pairwise (l : List ExamResultR) :
    (sortByCreatedDesc l).Pairwise (fun a b => b.created_at ≤ a.created_at) := by
  induction l with
  | nil => simp [sortByCreatedDesc]
  | cons e xs ih => exact pairwise_insertByCreatedDesc e (sortByCreatedDesc xs) ih

theorem filter_insertByCreatedDesc (e : ExamResultR) (l : List ExamResultR) (t : Nat) :
    (insertByCreatedDesc e l).filter (fun x => x.created_at == t)
      = if e.created_at = t then e :: l.filter (fun x => x.created_at == t)
        else l.filter (fun x => x.created_at == t) := by
  induction l with
  | nil =>
    by_cases he : e.created_at = t <;>
      simp [insertByCreatedDesc, List.filter_cons, he]
  | cons x xs ih =>
    rw [insertByCreatedDesc_cons]
    by_cases hlt : e.created_at < x.created_at
    · rw [if_pos hlt]
      by_cases he : e.created_at = t
      · have hx : ¬ x.created_at = t := by
          intro hh
          rw [he] at hlt
          rw [hh] at hlt
          exact Nat.lt_irrefl t hlt
        simp [List.filter_cons, he, hx, ih]
      · simp [List.filter_cons, he, ih]
    · rw [if_neg hlt]
      by_cases he : e.created_at = t <;> simp [List.filter_cons, he]

theorem sortByCreatedDesc_filter (l : List ExamResultR) (t : Nat) :
    (sortByCreatedDesc l).filter (fun x => x.created_at == t)
      = l.filter (fun x => x.created_at == t) := by
  induction l with
  | nil => rfl
  | cons e xs ih =>
    show (insertByCreatedDesc e (sortByCreatedDesc xs)).filter (fun x => x.created_at == t) = _
    rw [filter_insertByCreatedDesc]
    by_cases he : e.created_at = t <;> simp [List.filter_cons, he, ih]

/-!  History aggregation: the cumulative tally is the pointwise sum. -/

theorem srAddEntry_corr_self (sr : SectionResults) (s : String) (v : SectionStats)
    (h : srContains sr s = true) :
    srCorrectLk (srAddEntry sr s v) s = srCorrectLk sr s + v.correct := by
  induction sr with
  | nil => simp [srContains] at h
  | cons p ps ih =>
    by_cases hp : p.1 = s
    · simp [srAddEntry, hp, srCorrectLk_cons]
    · have hps := srContains_cons_of_ne p ps s hp h
      simp [srAddEntry, hp, srCorrectLk_cons, ih hps]

theorem srAddEntry_corr_other (sr : SectionResults) (s x : String) (v : SectionStats)
    (hx : ¬ x = s) :
    srCorrectLk (srAddEntry sr s v) x = srCorrectLk sr x := by
  induction sr with
  | nil => simp [srAddEntry]
  | cons p ps ih =>
    by_cases hp : p.1 = s
    · have hpx : ¬ p.1 = x := fun hh => hx (by rw [← hh, hp])
      have hsx : ¬ s = x := fun hh => hx hh.symm
      simp [srAddEntry, hp, srCorrectLk_cons, hpx, hsx]
    · simp [srAddEntry, hp, srCorrectLk_cons, ih]

theorem srAddEntry_tot_self (sr : SectionResults) (s : String) (v : SectionStats)
    (h : srContains sr s = true) :
    srTotalLk (srAddEntry sr s v) s = srTotalLk sr s + v.total := by
  induction sr with
  | nil => simp [srContains] at h
  | cons p ps ih =>
    by_cases hp : p.1 = s
    · simp [srAddEntry, hp, srTotalLk_cons]
    · have hps := srContains_cons_of_ne p ps s hp h
      simp [srAddEntry, hp, srTotalLk_cons, ih hps]

theorem srAddEntry_tot_other (sr : SectionResults) (s x : String) (v : SectionStats)
    (hx : ¬ x = s) :
    srTotalLk (srAddEntry sr s v) x = srTotalLk sr x := by
  induction sr with
  | nil => simp [srAddEntry]
  | cons p ps ih =>
    by_cases hp : p.1 = s
    · have hpx : ¬ p.1 = x := fun hh => hx (by rw [← hh, hp])
      have hsx : ¬ s = x := fun hh => hx hh.symm
      simp [srAddEntry, hp, srTotalLk_cons, hpx, hsx]
    · simp [srAddEntry, hp, srTotalLk_cons, ih]

theorem srAddInto_corr (acc : SectionResults) (s x : String) (v : SectionStats) :
    srCorrectLk (srAddEntry (srEnsure acc s) s v) x
      = srCorrectLk acc x + (if s = x then v.correct else 0) := by
  by_cases hx : x = s
  · subst hx
    rw [srAddEntry_corr_self _ _ _ (srContains_srEnsure_self acc x), srCorrectLk_srEnsure]
    simp
  · have hsx : ¬ s = x := fun hh => hx hh.symm
    rw [srAddEntry_corr_other _ _ _ _ hx, srCorrectLk_srEnsure]
    simp [hsx]

theorem srAddInto_tot (acc : SectionResults) (s x : String) (v : SectionStats) :
    srTotalLk (srAddEntry (srEnsure acc s) s v) x
      = srTotalLk acc x + (if s = x then v.total else 0) := by
  by_cases hx : x = s
  · subst hx
    rw [srAddEntry_tot_self _ _ _ (srContains_srEnsure_self acc x), srTotalLk_srEnsure]
    simp
  · have hsx : ¬ s = x := fun hh => hx hh.symm
    rw [srAddEntry_tot_other _ _ _ _ hx, srTotalLk_srEnsure]
    simp [hsx]

theorem entryCorrectSum_cons (p : String × SectionStats) (ps : SectionResults) (x : String) :
    entryCorrectSum (p :: ps) x
      = (if p.1 = x then p.2.correct else 0) + entryCorrectSum ps x := by
  by_cases hp : p.1 = x <;> simp [entryCorrectSum, List.filter_cons, hp]

theorem entryTotalSum_cons (p : String × SectionStats) (ps : SectionResults) (x : String) :
    entryTotalSum (p :: ps) x
      = (if p.1 = x then p.2.total else 0) + entryTotalSum ps x := by
  by_cases hp : p.1 = x <;> simp [entryTotalSum, List.filter_cons, hp]

theorem overallStep_corr (acc sr : SectionResults) (x : String) :
    srCorrectLk (overallStep acc sr) x = srCorrectLk acc x + entryCorrectSum sr x := by
  induction sr generalizing acc with
  | nil => simp [overallStep, entryCorrectSum]
  | cons p ps ih =>
    show srCorrectLk (overallStep (srAddEntry (srEnsure acc p.1) p.1 p.2) ps) x = _
    rw [ih, srAddInto_corr, entryCorrectSum_cons]
    by_cases hp : p.1 = x <;> simp [hp] <;> omega

theorem overallStep_tot (acc sr : SectionResults) (x : String) :
    srTotalLk (overallStep acc sr) x = srTotalLk acc x + entryTotalSum sr x := by
  induction sr generalizing acc with
  | nil => simp [overallStep, entryTotalSum]
  | cons p ps ih =>
    show srTotalLk (overallStep (srAddEntry (srEnsure acc p.1) p.1 p.2) ps) x = _
    rw [ih, srAddInto_tot, entryTotalSum_cons]
    by_cases hp : p.1 = x <;> simp [hp] <;> omega

theorem overallStatistics_foldl_corr (l : List ExamResultR) (acc : SectionResults)
    (x : String) :
    srCorrectLk (l.foldl (fun acc e => overallStep acc e.section_results) acc) x
      = srCorrectLk acc x + (l.map (fun e => entryCorrectSum e.section_results x)).sum := by
  induction l generalizing acc with
  | nil => simp
  | cons e l ih =>
    simp only [List.foldl_cons, List.map_cons, List.sum_cons]
    rw [ih, overallStep_corr]
    omega

theorem overallStatistics_foldl_tot (l : List ExamResultR) (acc : SectionResults)
    (x : String) :
    srTotalLk (l.foldl (fun acc e => overallStep acc e.section_results) acc) x
      = srTotalLk acc x + (l.map (fun e => entryTotalSum e.section_results x)).sum := by
  induction l generalizing acc with
  | nil => simp
  | cons e l ih =>
    simp only [List.foldl_cons, List.map_cons, List.sum_cons]
    rw [ih, overallStep_tot]
    omega

/-- The cumulative `correct` count for a section is the sum, over the
stored results, of the entries they carry for that section. -/
theorem overallStatistics_corr (l : List ExamResultR) (x : String) :
    srCorrectLk (overallStatistics l) x
      = (l.map (fun e => entryCorrectSum e.section_results x)).sum := by
  rw [overallStatistics, overallStatistics_foldl_corr, srCorrectLk_nil, Nat.zero_add]

/-- The cumulative `total` count for a section is the sum, over the stored
results, of the entries they carry for that section. -/
theorem overallStatistics_tot (l : List ExamResultR) (x : String) :
    srTotalLk (overallStatistics l) x
      = (l.map (fun e => entryTotalSum e.section_results x)).sum := by
  rw [overallStatistics, overallStatistics_foldl_tot, srTotalLk_nil, Nat.zero_add]

theorem entryCorrectSum_not_contains (sr : SectionResults) (x : String)
    (h : ¬ srContains sr x = true) : entryCorrectSum sr x = 0 := by
  induction sr with
  | nil => rfl
  | cons p ps ih =>
    have hp : ¬ p.1 = x := fun hh => h (by simp [srContains, hh])
    have hps : ¬ srContains ps x = true := fun hh => h (by simp [srContains, hh])
    simp [entryCorrectSum_cons, hp, ih hps]

theorem entryTotalSum_not_contains (sr : SectionResults) (x : String)
    (h : ¬ srContains sr x = true) : entryTotalSum sr x = 0 := by
  induction sr with
  | nil => rfl
  | cons p ps ih =>
    have hp : ¬ p.1 = x := fun hh => h (by simp [srContains, hh])
    have hps : ¬ srContains ps x = true := fun hh => h (by simp [srContains, hh])
    simp [entryTotalSum_cons, hp, ih hps]

theorem srContains_mem_keys (sr : SectionResults) (x : String)
    (h : srContains sr x = true) : x ∈ sr.map Prod.fst := by
  induction sr with
  | nil => simp [srContains] at h
  | cons r rs ih =>
    simp only [srContains, Bool.or_eq_true, beq_iff_eq] at h
    rcases h with h1 | h2
    · simp [h1]
    · simp only [List.map_cons, List.mem_cons]
      exact Or.inr (ih h2)

theorem keysNodup_not_contains (p : String × SectionStats) (ps : SectionResults)
    (h : keysNodup (p :: ps)) : ¬ srContains ps p.1 = true := by
  rcases List.nodup_cons.mp h with ⟨hmem, _⟩
  intro hc
  exact hmem (srContains_mem_keys ps p.1 hc)

/-- On a unique-key tally (every dict), the entry-sum for a key is just the
entry stored at that key. -/
theorem entryCorrectSum_eq_lookup (sr : SectionResults) (x : String) (h : keysNodup sr) :
    entryCorrectSum sr x = srCorrectLk sr x := by
  induction sr with
  | nil => rfl
  | cons p ps ih =>
    have hps : keysNodup ps := (List.nodup_cons.mp h).2
    by_cases hp : p.1 = x
    · have hnc : ¬ srContains ps x = true := by
        rw [← hp]
        exact keysNodup_not_contains p ps h
      rw [entryCorrectSum_cons, srCorrectLk_cons, if_pos hp, if_pos hp,
        entryCorrectSum_not_contains ps x hnc]
      omega
    · rw [entryCorrectSum_cons, srCorrectLk_cons, if_neg hp, if_neg hp, ih hps]
      omega

theorem entryTotalSum_eq_lookup (sr : SectionResults) (x : String) (h : keysNodup sr) :
    entryTotalSum sr x = srTotalLk sr x := by
  induction sr with
  | nil => rfl
  | cons p ps ih =>
    have hps : keysNodup ps := (List.nodup_cons.mp h).2
    by_cases hp : p.1 = x
    · have hnc : ¬ srContains ps x = true := by
        rw [← hp]
        exact keysNodup_not_contains p ps h
      rw [entryTotalSum_cons, srTotalLk_cons, if_pos hp, if_pos hp,
        entryTotalSum_not_contains ps x hnc]
      omega
    · rw [entryTotalSum_cons, srTotalLk_cons, if_neg hp, if_neg hp, ih hps]
      omega

/-!  Language projection helpers. -/

theorem optionsGet_kz (opts : List LocalizedText) :
    optionsGet opts "kz" = some (opts.map (fun opt => opt.kz)) := by
  induction opts with
  | nil => rfl
  | cons o os ih => simp [optionsGet, LocalizedText.get, ih]

theorem optionsGet_ru (opts : List LocalizedText) :
    optionsGet opts "ru" = some (opts.map (fun opt => opt.ru)) := by
  induction opts with
  | nil => rfl
  | cons o os ih => simp [optionsGet, LocalizedText.get, ih]

theorem localizedText_get_unknown (t : LocalizedText) (lang : String)
    (h1 : ¬ lang = "kz") (h2 : ¬ lang = "ru") : t.get lang = none := by
  simp [LocalizedText.get, h1, h2]

/-!  Score arithmetic. -/

theorem scoreOf_zero_total (c : Nat) : scoreOf c 0 = 0 := by
  simp [scoreOf]

theorem scoreOf_zero_correct (n : Nat) : scoreOf 0 n = 0 := by
  rw [scoreOf]
  by_cases h : n > 0 <;> simp [h]

theorem submitExam_score_eq (store : QuestionStore) (uid : String) (sub : ExamSubmit)
    (eid : String) (now : Nat) :
    (submitExam store uid sub eid now).score
      = scoreOf (submitExam store uid sub eid now).correct_answers
          (submitExam store uid sub eid now).total_questions := rfl

theorem submitExam_passed_eq (store : QuestionStore) (uid : String) (sub : ExamSubmit)
    (eid : String) (now : Nat) :
    (submitExam store uid sub eid now).passed
      = decide ((70 : ℚ) ≤ (submitExam store uid sub eid now).score) := rfl

theorem submitExam_total_questions (store : QuestionStore) (uid : String) (sub : ExamSubmit)
    (eid : String) (now : Nat) :
    (submitExam store uid sub eid now).total_questions = sub.answers.length := rfl

theorem submitExam_section_results (store : QuestionStore) (uid : String) (sub : ExamSubmit)
    (eid : String) (now : Nat) :
    (submitExam store uid sub eid now).section_results
      = (sub.answers.foldl (scoreStep store) ⟨0, []⟩).section_results := by
  show (submitScore store sub).section_results = _
  rw [submitScore_eq_foldl]

/-!  The claims. -/

/-- C1: for every submission, the ExamResult has
`score = correct_answers / total_questions * 100` when `total_questions > 0`
and `score = 0` when `total_questions = 0`, with no rounding, and
`passed` holds exactly when `score >= 70`; an empty submission yields
score 0, passed false and an empty section tally. -/
theorem C1_score_formula_threshold_empty (store : QuestionStore) (uid : String)
    (sub : ExamSubmit) (eid : String) (now : Nat) :
    ((submitExam store uid sub eid now).total_questions ≠ 0 →
      (submitExam store uid sub eid now).score
        = ((submitExam store uid sub eid now).correct_answers : ℚ)
            / ((submitExam store uid sub eid now).total_questions : ℚ) * 100) ∧
    ((submitExam store uid sub eid now).total_questions = 0 →
      (submitExam store uid sub eid now).score = 0) ∧
    ((submitExam store uid sub eid now).passed = true ↔
      (70 : ℚ) ≤ (submitExam store uid sub eid now).score) ∧
    (sub.answers = [] →
      (submitExam store uid sub eid now).score = 0 ∧
      (submitExam store uid sub eid now).passed = false ∧
      (submitExam store uid sub eid now).section_results = []) := by
  refine ⟨?_, ?_, ?_, ?_⟩
  · intro h
    rw [submitExam_score_eq, scoreOf, if_pos (Nat.pos_of_ne_zero h)]
  · intro h
    rw [submitExam_score_eq, scoreOf, if_neg]
    simp [h]
  · rw [submitExam_passed_eq]
    simp
  · intro h
    have htot : (submitExam store uid sub eid now).total_questions = 0 := by
      rw [submitExam_total_questions, h]
      rfl
    have hsc : (submitExam store uid sub eid now).score = 0 := by
      rw [submitExam_score_eq, htot, scoreOf_zero_total]
    refine ⟨hsc, ?_, ?_⟩
    · rw [submitExam_passed_eq, hsc]
      decide
    · rw [submitExam_section_results, h]
      rfl

theorem C1_witness :
    (submitExam exStore1 "u" exSub1 "e" 5).score = 100 ∧
    (submitExam exStore1 "u" exSub1 "e" 5).passed = true ∧
    (submitExam (fun _ => none) "u" ⟨TestMode.exam, [], none, none⟩ "e" 0).score = 0 ∧
    (submitExam (fun _ => none) "u" ⟨TestMode.exam, [], none, none⟩ "e" 0).passed = false ∧
    (submitExam (fun _ => none) "u" ⟨TestMode.exam, [], none, none⟩ "e" 0).section_results
      = [] := by
  have h1 := C1_score_formula_threshold_empty exStore1 "u" exSub1 "e" 5
  have h2 := C1_score_formula_threshold_empty (fun _ => none) "u"
    ⟨TestMode.exam, [], none, none⟩ "e" 0
  have hc : (submitExam exStore1 "u" exSub1 "e" 5).correct_answers = 1 := by decide
  have ht : (submitExam exStore1 "u" exSub1 "e" 5).total_questions = 1 := by decide
  have hsc : (submitExam exStore1 "u" exSub1 "e" 5).score = 100 := by
    rw [h1.1 (by decide), hc, ht]
    norm_num
  have hempty := h2.2.2.2 rfl
  refine ⟨hsc, ?_, hempty.1, hempty.2.1, hempty.2.2⟩
  rw [h1.2.2.1, hsc]
  norm_num

/-- C7: scoring the same submission twice against an unchanged question
store yields results identical in every content field; only the assigned
identity and creation timestamp can differ. -/
theorem C7_two_run_determinism (store : QuestionStore) (uid : String) (sub : ExamSubmit)
    (eid1 : String) (now1 : Nat) (eid2 : String) (now2 : Nat) :
    (submitExam store uid sub eid1 now1).total_questions
        = (submitExam store uid sub eid2 now2).total_questions ∧
    (submitExam store uid sub eid1 now1).correct_answers
        = (submitExam store uid sub eid2 now2).correct_answers ∧
    (submitExam store uid sub eid1 now1).score = (submitExam store uid sub eid2 now2).score ∧
    (submitExam store uid sub eid1 now1).passed = (submitExam store uid sub eid2 now2).passed ∧
    (submitExam store uid sub eid1 now1).«section»
        = (submitExam store uid sub eid2 now2).«section» ∧
    (submitExam store uid sub eid1 now1).section_results
        = (submitExam store uid sub eid2 now2).section_results ∧
    (submitExam store uid sub eid1 now1).time_spent
        = (submitExam store uid sub eid2 now2).time_spent ∧
    (submitExam store uid sub eid1 now1).answers = (submitExam store uid sub eid2 now2).answers ∧
    (submitExam store uid sub eid1 now1).user_id = (submitExam store uid sub eid2 now2).user_id ∧
    (submitExam store uid sub eid1 now1).mode = (submitExam store uid sub eid2 now2).mode :=
  ⟨rfl, rfl, rfl, rfl, rfl, rfl, rfl, rfl, rfl, rfl⟩

theorem foldl_scoreStep_middle_unresolved (store : QuestionStore) (l1 l2 : List ExamAnswer)
    (a : ExamAnswer) (st : ScoreState) (h : store a.question_id = none) :
    (l1 ++ a :: l2).foldl (scoreStep store) st = (l1 ++ l2).foldl (scoreStep store) st := by
  rw [List.foldl_append, List.foldl_append, List.foldl_cons, scoreStep_unresolved store _ a h]

/-- C3: `total_questions` is the number of submitted answers, and an answer
whose question id does not resolve contributes 1 to `total_questions` but
nothing to `correct_answers` and no section tally entry. -/
theorem C3_total_counts_submitted_unresolved_excluded (store : QuestionStore) (uid : String)
    (sub : ExamSubmit) (eid : String) (now : Nat) (mode : TestMode)
    (secf : Option LegislationSection) (ts : Option Int) (a : ExamAnswer)
    (l1 l2 : List ExamAnswer) :
    ((submitExam store uid sub eid now).total_questions = sub.answers.length) ∧
    (store a.question_id = none →
      (submitExam store uid ⟨mode, l1 ++ a :: l2, secf, ts⟩ eid now).total_questions
        = (submitExam store uid ⟨mode, l1 ++ l2, secf, ts⟩ eid now).total_questions + 1 ∧
      (submitExam store uid ⟨mode, l1 ++ a :: l2, secf, ts⟩ eid now).correct_answers
        = (submitExam store uid ⟨mode, l1 ++ l2, secf, ts⟩ eid now).correct_answers ∧
      (submitExam store uid ⟨mode, l1 ++ a :: l2, secf, ts⟩ eid now).section_results
        = (submitExam store uid ⟨mode, l1 ++ l2, secf, ts⟩ eid now).section_results) := by
  refine ⟨submitExam_total_questions store uid sub eid now, ?_⟩
  intro h
  have hsc : submitScore store ⟨mode, l1 ++ a :: l2, secf, ts⟩
      = submitScore store ⟨mode, l1 ++ l2, secf, ts⟩ := by
    rw [submitScore_eq_foldl, submitScore_eq_foldl]
    exact foldl_scoreStep_middle_unresolved store l1 l2 a ⟨0, []⟩ h
  refine ⟨?_, ?_, ?_⟩
  · rw [submitExam_total_questions, submitExam_total_questions]
    simp
    omega
  · show (submitScore store ⟨mode, l1 ++ a :: l2, secf, ts⟩).correct_answers
        = (submitScore store ⟨mode, l1 ++ l2, secf, ts⟩).correct_answers
    rw [hsc]
  · show (submitScore store ⟨mode, l1 ++ a :: l2, secf, ts⟩).section_results
        = (submitScore store ⟨mode, l1 ++ l2, secf, ts⟩).section_results
    rw [hsc]

theorem C3_witness :
    (submitExam exStore1 "u" exSubMissing "e" 5).total_questions = 2 ∧
    (submitExam exStore1 "u" exSubMissing "e" 5).correct_answers
      = (submitExam exStore1 "u" ⟨TestMode.exam, [⟨"q1", 0⟩], none, none⟩ "e" 5).correct_answers ∧
    (submitExam exStore1 "u" exSubMissing "e" 5).correct_answers = 1 ∧
    (submitExam exStore1 "u" exSubMissing "e" 5).section_results
      = [("civil_code", ⟨1, 1⟩)] := by
  have h := C3_total_counts_submitted_unresolved_excluded exStore1 "u" exSubMissing "e" 5
    TestMode.exam none none ⟨"q_missing", 0⟩ [] [⟨"q1", 0⟩]
  have h2 := (h.2 (by decide))
  refine ⟨?_, ?_, by decide, by decide⟩
  · exact h.1.trans (by decide)
  · exact h2.2.1

/-- C4: for every submission and question store, the result satisfies
`correct_answers <= total_questions`, and every section tally entry
satisfies `0 <= correct <= total`. -/
theorem C4_counter_invariants (store : QuestionStore) (uid : String) (sub : ExamSubmit)
    (eid : String) (now : Nat) :
    (submitExam store uid sub eid now).correct_answers
        ≤ (submitExam store uid sub eid now).total_questions ∧
    (∀ p ∈ (submitExam store uid sub eid now).section_results,
      0 ≤ p.2.correct ∧ p.2.correct ≤ p.2.total) := by
  constructor
  · rw [submitExam_correct_answers, submitExam_total_questions]
    exact List.countP_le_length _
  · rw [submitExam_section_results]
    intro p hp
    refine ⟨Nat.zero_le _, ?_⟩
    refine srWF_foldl store sub.answers ⟨0, []⟩ ?_ p hp
    intro x hx
    simp at hx

theorem C4_witness :
    (submitExam exStore2 "u" exSub2 "e" 5).correct_answers
        ≤ (submitExam exStore2 "u" exSub2 "e" 5).total_questions ∧
    ((("civil_code" : String), (⟨0, 1⟩ : SectionStats))
        ∈ (submitExam exStore2 "u" exSub2 "e" 5).section_results ∧
      (0 : Nat) ≤ 0 ∧ (0 : Nat) ≤ 1) := by
  have h := C4_counter_invariants exStore2 "u" exSub2 "e" 5
  have hmem : (("civil_code" : String), (⟨0, 1⟩ : SectionStats))
      ∈ (submitExam exStore2 "u" exSub2 "e" 5).section_results := by decide
  exact ⟨h.1, hmem, h.2 _ hmem⟩

/-- C9: the tally's totals sum to the number of answers resolved to a
question with a non-empty section tag (hence at most `total_questions`),
the tally's correct counts sum to at most `correct_answers`, and a resolved
sectionless question can add to `correct_answers` while the tally stays
empty. -/
theorem C9_tally_sums_bounded (store : QuestionStore) (uid : String) (sub : ExamSubmit)
    (eid : String) (now : Nat) :
    srTotalSum (submitExam store uid sub eid now).section_results
        = sub.answers.countP (resolvedWithSection store) ∧
    srTotalSum (submitExam store uid sub eid now).section_results
        ≤ (submitExam store uid sub eid now).total_questions ∧
    srCorrectSum (submitExam store uid sub eid now).section_results
        ≤ (submitExam store uid sub eid now).correct_answers ∧
    ((submitExam exStoreNoSec "u" exSub1 "e" 0).correct_answers = 1 ∧
      (submitExam exStoreNoSec "u" exSub1 "e" 0).section_results = []) := by
  refine ⟨submitExam_srTotalSum store uid sub eid now, ?_,
    submitExam_srCorrectSum_le store uid sub eid now, by decide, by decide⟩
  rw [submitExam_srTotalSum, submitExam_total_questions]
  exact List.countP_le_length _

/-- C10: for an unchanged question, the detail endpoint's `is_correct`
flag holds exactly when the scoring engine counted the answer. -/
theorem C10_detail_matches_scoring (store : QuestionStore) (uid : String) (mode : TestMode)
    (secf : Option LegislationSection) (ts : Option Int) (a : ExamAnswer) (q : QuestionDoc)
    (eid : String) (now : Nat) (h : store a.question_id = some q) :
    detailIsCorrect q a.answer = true ↔
      (submitExam store uid ⟨mode, [a], secf, ts⟩ eid now).correct_answers = 1 := by
  have ha : answerCounted store a = detailIsCorrect q a.answer := by
    simp [answerCounted, h, detailIsCorrect]
  rw [submitExam_correct_answers]
  have hcount : List.countP (answerCounted store) [a]
      = if answerCounted store a then 1 else 0 := by
    simp [List.countP_cons]
  rw [hcount, ha]
  by_cases hd : detailIsCorrect q a.answer <;> simp [hd]

theorem C10_witness :
    detailIsCorrect (exDoc 0 (some "civil_code")) 0 = true ∧
    (submitExam exStore1 "u" ⟨TestMode.exam, [⟨"q1", 0⟩], none, none⟩ "e" 5).correct_answers
      = 1 := by
  have h := C10_detail_matches_scoring exStore1 "u" TestMode.exam none none ⟨"q1", 0⟩
    (exDoc 0 (some "civil_code")) "e" 5 (by decide)
  exact ⟨by decide, h.mp (by decide)⟩

theorem C7_witness :
    (submitExam exStore1 "u" exSub1 "a" 1).score = (submitExam exStore1 "u" exSub1 "b" 2).score ∧
    (submitExam exStore1 "u" exSub1 "a" 1).section_results
      = (submitExam exStore1 "u" exSub1 "b" 2).section_results ∧
    (submitExam exStore1 "u" exSub1 "a" 1).passed = (submitExam exStore1 "u" exSub1 "b" 2).passed := by
  have h := C7_two_run_determinism exStore1 "u" exSub1 "a" 1 "b" 2
  exact ⟨h.2.2.1, h.2.2.2.2.2.1, h.2.2.2.1⟩

theorem C9_witness :
    srTotalSum (submitExam exStore1 "u" exSubMissing "e" 5).section_results
        = exSubMissing.answers.countP (resolvedWithSection exStore1) ∧
    srTotalSum (submitExam exStore1 "u" exSubMissing "e" 5).section_results = 1 ∧
    (submitExam exStore1 "u" exSubMissing "e" 5).total_questions = 2 := by
  have h := C9_tally_sums_bounded exStore1 "u" exSubMissing "e" 5
  exact ⟨h.1, by decide, by decide⟩

/-- C2: a negative selected index is never counted toward `correct_answers`
or a section's `correct`, regardless of the stored correct index, but when
the question resolves (with its section tag) the section's `total` still
increments; a submission of only negative answers scores 0 with
`correct_answers = 0` while each resolved question's section total still
counts. -/
theorem C2_negative_counts_total_only (f : String → Option QuestionDoc) (st : ScoreState)
    (a : ExamAnswer) (q : QuestionDoc) (s : String) (store : QuestionStore) (uid : String)
    (sub : ExamSubmit) (eid : String) (now : Nat) :
    (f a.question_id = some q → a.answer < 0 →
      (scoreStep f st a).correct_answers = st.correct_answers) ∧
    (f a.question_id = some q → q.«section» = some s → s ≠ "" → a.answer < 0 →
      scoreStep f st a
        = ⟨st.correct_answers, srIncTotal (srEnsure st.section_results s) s⟩) ∧
    ((∀ x ∈ sub.answers, x.answer < 0) →
      (submitExam store uid sub eid now).correct_answers = 0 ∧
      (submitExam store uid sub eid now).score = 0 ∧
      srTotalSum (submitExam store uid sub eid now).section_results
        = sub.answers.countP (resolvedWithSection store)) := by
  refine ⟨?_, ?_, ?_⟩
  · intro hf hneg
    rw [scoreStep_correct_answers]
    have : answerCounted f a = false := by
      simp [answerCounted, hf, Int.not_le.mpr hneg]
    simp [this]
  · intro hf hs he hneg
    have hc : ¬ (0 ≤ a.answer ∧ q.correct = a.answer) := by
      intro hcc
      exact absurd hcc.1 (Int.not_le.mpr hneg)
    simp only [scoreStep, hf, hs]
    rw [if_pos he, if_neg hc]
  · intro hall
    have hzero : (submitExam store uid sub eid now).correct_answers = 0 := by
      rw [submitExam_correct_answers]
      apply List.countP_eq_zero.mpr
      intro x hx
      simp [answerCounted]
      cases hq : store x.question_id with
      | none => simp
      | some qq => simp [Int.not_le.mpr (hall x hx)]
    refine ⟨hzero, ?_, submitExam_srTotalSum store uid sub eid now⟩
    rw [submitExam_score_eq, hzero, scoreOf_zero_correct]

theorem C2_witness :
    (submitExam exStore2 "u" exSubNeg "e" 5).correct_answers = 0 ∧
    (submitExam exStore2 "u" exSubNeg "e" 5).score = 0 ∧
    srTotalSum (submitExam exStore2 "u" exSubNeg "e" 5).section_results = 2 ∧
    (submitExam exStore2 "u" exSubNeg "e" 5).section_results
      = [("civil_code", ⟨0, 1⟩), ("criminal_code", ⟨0, 1⟩)] := by
  have h := (C2_negative_counts_total_only exStore2 ⟨0, []⟩ ⟨"q1", -1⟩ (exDoc 0 (some "civil_code"))
    "civil_code" exStore2 "u" exSubNeg "e" 5).2.2 (by decide)
  exact ⟨h.1, h.2.1, h.2.2.trans (by decide), by decide⟩

/-- C6: an answer whose question resolves (with a section tag) always gets
a tally entry for that section, increments exactly that section's `total`
by one and the grand total by one; the entry is still present in the final
result. -/
theorem C6_resolved_increments_section_total (f : String → Option QuestionDoc)
    (st : ScoreState) (a : ExamAnswer) (q : QuestionDoc) (s : String) (store : QuestionStore)
    (uid : String) (sub : ExamSubmit) (eid : String) (now : Nat) :
    (f a.question_id = some q → q.«section» = some s → s ≠ "" →
      srContains (scoreStep f st a).section_results s = true ∧
      srTotalLk (scoreStep f st a).section_results s = srTotalLk st.section_results s + 1 ∧
      (∀ x, ¬ x = s →
        srTotalLk (scoreStep f st a).section_results x = srTotalLk st.section_results x) ∧
      srTotalSum (scoreStep f st a).section_results = srTotalSum st.section_results + 1) ∧
    (a ∈ sub.answers → store a.question_id = some q → q.«section» = some s → s ≠ "" →
      srContains (submitExam store uid sub eid now).section_results s = true) := by
  constructor
  · intro hf hs he
    exact scoreStep_resolved_section f st a q s hf hs he
  · intro hmem hf hs he
    rw [submitExam_section_results]
    rcases List.append_of_mem hmem with ⟨l1, l2, hsplit⟩
    rw [hsplit, List.foldl_append, List.foldl_cons]
    apply foldl_srContains_mono
    exact (scoreStep_resolved_section store _ a q s hf hs he).1

theorem C6_witness :
    srContains (submitExam exStore2 "u" exSub2 "e" 5).section_results "criminal_code" = true ∧
    srTotalLk (scoreStep exStore2 ⟨0, []⟩ ⟨"q2", -1⟩).section_results "criminal_code" = 1 ∧
    srTotalSum (scoreStep exStore2 ⟨0, []⟩ ⟨"q2", -1⟩).section_results = 1 := by
  have h := C6_resolved_increments_section_total exStore2 ⟨0, []⟩ ⟨"q2", -1⟩
    (exDoc 2 (some "criminal_code")) "criminal_code" exStore2 "u" exSub2 "e" 5
  have h1 := h.1 (by decide) (by decide) (by decide)
  have h2 := h.2 (by decide) (by decide) (by decide) (by decide)
  exact ⟨h2, by rw [h1.2.1]; decide, by rw [h1.2.2.2]; decide⟩

/-- C8 counterexample: `format_question_for_language` has no language
fallback — a well-formed question projects fine for a stored language but
the projection fails (raises `KeyError`) for an unrecognized code. -/
theorem C8_counterexample_no_fallback :
    format_question_for_language "q1" (exDoc 0 (some "civil_code")) "en" = none ∧
    (format_question_for_language "q1" (exDoc 0 (some "civil_code")) "kz").isSome = true := by
  decide

/-- C8 (amended): the projection substitutes the requested language's
values when the code is `"kz"` or `"ru"` (the stored languages); for any
other code it fails with a `KeyError` rather than falling back to a
primary language. -/
theorem C8_language_projection (qid : String) (qd : QuestionDoc) (lang : String)
    (sec : LegislationSection) (hsec : LegislationSection.parse qd.«section» = some sec) :
    (lang = "kz" → format_question_for_language qid qd lang
        = some ⟨qid, qd.question.kz, qd.options.map (fun o => o.kz), qd.correct,
                qd.explanation.kz, sec.value, LEGISLATION_NAMES sec⟩) ∧
    (lang = "ru" → format_question_for_language qid qd lang
        = some ⟨qid, qd.question.ru, qd.options.map (fun o => o.ru), qd.correct,
                qd.explanation.ru, sec.value, LEGISLATION_NAMES sec⟩) ∧
    (¬ lang = "kz" → ¬ lang = "ru" → format_question_for_language qid qd lang = none) := by
  refine ⟨?_, ?_, ?_⟩
  · intro h
    subst h
    simp [format_question_for_language, hsec, optionsGet_kz, LocalizedText.get]
  · intro h
    subst h
    simp [format_question_for_language, hsec, optionsGet_ru, LocalizedText.get]
  · intro h1 h2
    simp [format_question_for_language, hsec, localizedText_get_unknown qd.question lang h1 h2]

theorem C8_witness :
    format_question_for_language "q1" (exDoc 0 (some "civil_code")) "ru"
      = some ⟨"q1", "ru вопрос", ["ru0", "ru1", "ru2", "ru3"], 0, "ru объяснение",
              "civil_code", LEGISLATION_NAMES LegislationSection.civil_code⟩ ∧
    format_question_for_language "q1" (exDoc 0 (some "civil_code")) "en" = none := by
  have hr := (C8_language_projection "q1" (exDoc 0 (some "civil_code")) "ru"
    LegislationSection.civil_code (by decide)).2.1 rfl
  have he := (C8_language_projection "q1" (exDoc 0 (some "civil_code")) "en"
    LegislationSection.civil_code (by decide)).2.2 (by decide) (by decide)
  exact ⟨hr.trans (by decide), he⟩

/-- C5: the history aggregate's cumulative per-section statistics are the
pointwise sums of the stored tallies (hence permutation-invariant), and the
returned list is the input stably sorted by creation timestamp descending. -/
theorem C5_history_aggregation (l l' : List ExamResultR) (s : String) (t : Nat) :
    ((∀ e ∈ l, keysNodup e.section_results) →
      srCorrectLk (getExamHistory l).overall_statistics s
          = (l.map (fun e => srCorrectLk e.section_results s)).sum ∧
      srTotalLk (getExamHistory l).overall_statistics s
          = (l.map (fun e => srTotalLk e.section_results s)).sum) ∧
    (l.Perm l' →
      srCorrectLk (getExamHistory l).overall_statistics s
          = srCorrectLk (getExamHistory l').overall_statistics s ∧
      srTotalLk (getExamHistory l).overall_statistics s
          = srTotalLk (getExamHistory l').overall_statistics s) ∧
    (getExamHistory l).exams.Perm l ∧
    (getExamHistory l).exams.Pairwise (fun a b => b.created_at ≤ a.created_at) ∧
    (getExamHistory l).exams.filter (fun e => e.created_at == t)
        = l.filter (fun e => e.created_at == t) ∧
    (getExamHistory l).total_exams = l.length := by
  refine ⟨?_, ?_, ?_, ?_, ?_, ?_⟩
  · intro hn
    constructor
    · show srCorrectLk (overallStatistics l) s = _
      rw [overallStatistics_corr]
      exact congrArg List.sum (List.map_congr_left
        (fun e he => entryCorrectSum_eq_lookup e.section_results s (hn e he)))
    · show srTotalLk (overallStatistics l) s = _
      rw [overallStatistics_tot]
      exact congrArg List.sum (List.map_congr_left
        (fun e he => entryTotalSum_eq_lookup e.section_results s (hn e he)))
  · intro hperm
    constructor
    · show srCorrectLk (overallStatistics l) s = srCorrectLk (overallStatistics l') s
      rw [overallStatistics_corr, overallStatistics_corr]
      exact List.Perm.sum_eq (hperm.map _)
    · show srTotalLk (overallStatistics l) s = srTotalLk (overallStatistics l') s
      rw [overallStatistics_tot, overallStatistics_tot]
      exact List.Perm.sum_eq (hperm.map _)
  · exact sortByCreatedDesc_perm l
  · exact sortByCreatedDesc_pairwise l
  · exact sortByCreatedDesc_filter l t
  · show (sortByCreatedDesc l).length = l.length
    exact (sortByCreatedDesc_perm l).length_eq

theorem C5_witness :
    srCorrectLk (getExamHistory [exRes "a" [("A", ⟨1, 2⟩)] 1,
        exRes "b" [("A", ⟨2, 2⟩), ("B", ⟨1, 1⟩)] 2]).overall_statistics "A" = 3 ∧
    srTotalLk (getExamHistory [exRes "a" [("A", ⟨1, 2⟩)] 1,
        exRes "b" [("A", ⟨2, 2⟩), ("B", ⟨1, 1⟩)] 2]).overall_statistics "A" = 4 ∧
    (getExamHistory [exRes "a" [("A", ⟨1, 2⟩)] 1,
        exRes "b" [("A", ⟨2, 2⟩), ("B", ⟨1, 1⟩)] 2]).overall_statistics
      = [("A", ⟨3, 4⟩), ("B", ⟨1, 1⟩)] ∧
    ((getExamHistory [exRes "a" [("A", ⟨1, 2⟩)] 1,
        exRes "b" [("A", ⟨2, 2⟩), ("B", ⟨1, 1⟩)] 2]).exams.map (fun e => e.id)) = ["b", "a"] ∧
    (getExamHistory [exRes "a" [("A", ⟨1, 2⟩)] 1,
        exRes "b" [("A", ⟨2, 2⟩), ("B", ⟨1, 1⟩)] 2]).total_exams = 2 := by
  have h := C5_history_aggregation
    [exRes "a" [("A", ⟨1, 2⟩)] 1, exRes "b" [("A", ⟨2, 2⟩), ("B", ⟨1, 1⟩)] 2] [] "A" 1
  have hn := h.1 (by
    intro e he
    rw [keysNodup]
    rcases List.mem_cons.mp he with h1 | h2
    · subst h1; decide
    · rcases List.mem_cons.mp h2 with h3 | h4
      · subst h3; decide
      · simp at h4)
  refine ⟨hn.1.trans (by decide), hn.2.trans (by decide), by decide, by decide,
    h.2.2.2.2.2.trans (by decide)⟩
